import Mathlib

/-!
Verification of the DIPlib numeric kernel layer: streaming statistical
accumulators, integer-division variants, `pow10`, the packed symmetric
eigendecomposition entry point, and the grey-weighted-inertia measurement
kernel.

The C++ code is shallowly embedded: `dfloat` (IEEE double) is modelled as `ℚ`
(exact arithmetic), `dip::uint` (`std::size_t`, 64-bit) as `ℕ`, and `dip::sint`
(`std::ptrdiff_t`) as `ℤ` with C++ truncated division `Int.tdiv`.  The one
place where 64-bit unsigned wraparound is observable at realistic sample
counts — the bare `an - b.n_` subtractions inside
`StatisticsAccumulator::operator+=` and `Push` — is modelled exactly by
`usub64`.  Unsigned products (`an * an` and the like) are modelled without a
reduction modulo `2 ^ 64`, which is exact for sample counts below `2 ^ 32`.
-/

namespace dip

/-- Type of `dip::dfloat` samples, modelled as exact rationals. -/
abbrev dfloat := ℚ

/-- Result of `a - b` computed in 64-bit unsigned arithmetic (`dip::uint` is
`std::size_t`), for operands below `2 ^ 64`: the difference wraps around
modulo `2 ^ 64` whenever `a < b`. -/
def usub64 (a b : ℕ) : ℕ := (a + 2 ^ 64 - b) % 2 ^ 64

/-- State of `dip::StatisticsAccumulator` (`numeric.h`): sample count and the
first four central-moment sums.  Fields are named as in the source. -/
structure StatisticsAccumulator where
  n_ : ℕ
  m1_ : dfloat
  m2_ : dfloat
  m3_ : dfloat
  m4_ : dfloat
deriving DecidableEq

/-- Default-constructed (empty) `StatisticsAccumulator`: all fields zero. -/
def StatisticsAccumulator.init : StatisticsAccumulator :=
  { n_ := 0, m1_ := 0, m2_ := 0, m3_ := 0, m4_ := 0 }

/-- Translation of `StatisticsAccumulator::Push`.  The source increments `n_`
first and then uses the incremented value throughout; `( n_ - 1 )` and
`( n_ - 2 )` are computed in `dip::uint` arithmetic (the latter wraps when
`n_ = 1`, but is then multiplied by `term3 = 0`). -/
def StatisticsAccumulator.push (acc : StatisticsAccumulator) (x : dfloat) :
    StatisticsAccumulator :=
  let n : ℕ := acc.n_ + 1
  let delta : dfloat := x - acc.m1_
  let term1 : dfloat := delta / (n : ℚ)
  let term2 : dfloat := term1 * term1
  let term3 : dfloat := delta * term1 * ((n - 1 : ℕ) : ℚ)
  { n_ := n
    m1_ := acc.m1_ + term1
    m2_ := acc.m2_ + term3
    m3_ := acc.m3_ + term3 * term1 * ((usub64 n 2 : ℕ) : ℚ) - 3 * term1 * acc.m2_
    m4_ := acc.m4_ + term3 * term2 * (((n * n : ℕ) : ℚ) - 3 * (n : ℚ) + 3)
        + 6 * term2 * acc.m2_ - 4 * term1 * acc.m3_ }

/-- Translation of `StatisticsAccumulator::operator+=` (the merge used by
`operator+`).  All `dip::uint` subexpressions (`an2`, `bn2`, `xn2`, `n2`,
`an2 - xn2 + bn2`, `an - b.n_`) are computed in unsigned arithmetic before
conversion to `dfloat`; the two bare subtractions go through `usub64`. -/
def StatisticsAccumulator.combine (acc b : StatisticsAccumulator) :
    StatisticsAccumulator :=
  let an : ℕ := acc.n_
  let an2 : ℕ := an * an
  let bn2 : ℕ := b.n_ * b.n_
  let xn2 : ℕ := an * b.n_
  let n : ℕ := acc.n_ + b.n_
  let n2 : ℕ := n * n
  let delta : dfloat := b.m1_ - acc.m1_
  let delta2 : dfloat := delta * delta
  { n_ := n
    m1_ := ((an : ℚ) * acc.m1_ + (b.n_ : ℚ) * b.m1_) / (n : ℚ)
    m2_ := acc.m2_ + b.m2_ + delta2 * (xn2 : ℚ) / (n : ℚ)
    m3_ := acc.m3_ + b.m3_
        + delta * delta2 * (xn2 : ℚ) * ((usub64 an b.n_ : ℕ) : ℚ) / (n2 : ℚ)
        + 3 * delta * ((an : ℚ) * b.m2_ - (b.n_ : ℚ) * acc.m2_) / (n : ℚ)
    m4_ := acc.m4_ + b.m4_
        + delta2 * delta2 * (xn2 : ℚ)
            * ((((usub64 an2 xn2) + bn2) % 2 ^ 64 : ℕ) : ℚ) / ((n2 * n : ℕ) : ℚ)
        + 6 * delta2 * ((an2 : ℚ) * b.m2_ + (bn2 : ℚ) * acc.m2_) / (n2 : ℚ)
        + 4 * delta * ((an : ℚ) * b.m3_ - (b.n_ : ℚ) * acc.m3_) / (n : ℚ) }

instance : Add StatisticsAccumulator := ⟨StatisticsAccumulator.combine⟩

/-- Accessor `StatisticsAccumulator::Number`. -/
def StatisticsAccumulator.Number (acc : StatisticsAccumulator) : ℕ := acc.n_

/-- Accessor `StatisticsAccumulator::Mean`. -/
def StatisticsAccumulator.Mean (acc : StatisticsAccumulator) : dfloat := acc.m1_

/-- Accessor `StatisticsAccumulator::Variance`:
`( n_ > 1 ) ? ( m2_ / ( n_ - 1 )) : ( 0.0 )`. -/
def StatisticsAccumulator.Variance (acc : StatisticsAccumulator) : dfloat :=
  if 1 < acc.n_ then acc.m2_ / ((acc.n_ - 1 : ℕ) : ℚ) else 0

/-- Accessor `StatisticsAccumulator::StandardDeviation`:
`std::sqrt( Variance() )`.  The C library square root is not repository code,
so it is passed in as an abstract function `sqrt : ℚ → K`; theorems
instantiate it with `Real.sqrt` composed with the cast to `ℝ`. -/
def StatisticsAccumulator.StandardDeviation {K : Type} (sqrt : ℚ → K)
    (acc : StatisticsAccumulator) : K :=
  sqrt acc.Variance

/-- Accessor `StatisticsAccumulator::Skewness`, generic over the field `K`
carrying the result (theorems take `K := ℝ`).  The C library call
`std::pow( Variance(), 1.5 )` is abstracted as `pow15 : ℚ → K`; theorems
constrain it to the real power `x ^ (3 / 2)` on nonnegative arguments. -/
def StatisticsAccumulator.Skewness {K : Type} [Field K] (pow15 : ℚ → K)
    (acc : StatisticsAccumulator) : K :=
  if 2 < acc.n_ ∧ acc.m2_ ≠ 0 then
    let n : K := (acc.n_ : K)
    n * n / ((n - 1) * (n - 2)) * ((acc.m3_ : K) / (n * pow15 acc.Variance))
  else 0

/-- Accessor `StatisticsAccumulator::ExcessKurtosis`. -/
def StatisticsAccumulator.ExcessKurtosis (acc : StatisticsAccumulator) : dfloat :=
  if 3 < acc.n_ ∧ acc.m2_ ≠ 0 then
    let n : ℚ := (acc.n_ : ℚ)
    (n - 1) / ((n - 2) * (n - 3)) * ((n + 1) * n * acc.m4_ / (acc.m2_ * acc.m2_) - 3 * (n - 1))
  else 0

/-- State of `dip::VarianceAccumulator`: sample count and first two
central-moment sums. -/
structure VarianceAccumulator where
  n_ : ℕ
  m1_ : dfloat
  m2_ : dfloat
deriving DecidableEq

/-- Default-constructed (empty) `VarianceAccumulator`. -/
def VarianceAccumulator.init : VarianceAccumulator := { n_ := 0, m1_ := 0, m2_ := 0 }

/-- Translation of `VarianceAccumulator::Push` (Welford update; the `m2_`
increment reads the already-updated `m1_`). -/
def VarianceAccumulator.push (acc : VarianceAccumulator) (x : dfloat) :
    VarianceAccumulator :=
  let n : ℕ := acc.n_ + 1
  let delta : dfloat := x - acc.m1_
  let m1 : dfloat := acc.m1_ + delta / (n : ℚ)
  { n_ := n, m1_ := m1, m2_ := acc.m2_ + delta * (x - m1) }

/-- Translation of `VarianceAccumulator::operator+=`. -/
def VarianceAccumulator.combine (acc b : VarianceAccumulator) : VarianceAccumulator :=
  let oldn : ℕ := acc.n_
  let n : ℕ := acc.n_ + b.n_
  let delta : dfloat := b.m1_ - acc.m1_
  { n_ := n
    m1_ := ((oldn : ℚ) * acc.m1_ + (b.n_ : ℚ) * b.m1_) / (n : ℚ)
    m2_ := acc.m2_ + b.m2_ + delta * delta * ((oldn * b.n_ : ℕ) : ℚ) / (n : ℚ) }

instance : Add VarianceAccumulator := ⟨VarianceAccumulator.combine⟩

/-- Accessor `VarianceAccumulator::Number`. -/
def VarianceAccumulator.Number (acc : VarianceAccumulator) : ℕ := acc.n_

/-- Accessor `VarianceAccumulator::Mean`. -/
def VarianceAccumulator.Mean (acc : VarianceAccumulator) : dfloat := acc.m1_

/-- Accessor `VarianceAccumulator::Variance`. -/
def VarianceAccumulator.Variance (acc : VarianceAccumulator) : dfloat :=
  if 1 < acc.n_ then acc.m2_ / ((acc.n_ - 1 : ℕ) : ℚ) else 0

/-- Accessor `VarianceAccumulator::StandardDeviation`:
`std::sqrt( Variance() )` with the library square root abstracted as in
`StatisticsAccumulator.StandardDeviation`. -/
def VarianceAccumulator.StandardDeviation {K : Type} (sqrt : ℚ → K)
    (acc : VarianceAccumulator) : K :=
  sqrt acc.Variance

/-- Largest finite IEEE double, `std::numeric_limits< dfloat >::max()`,
as an exact rational, written as a numeral so that kernel evaluation does not
go through the power operator; `dfloatMax_eq` certifies it equals
`(2 ^ 53 - 1) * 2 ^ 971`.  `lowest()` is its negation. -/
def dfloatMax : ℚ := 179769313486231570814527423731704356798070567525844996598917476803157260780028538760589558632766878171540458953514382464234321326889464182768467546703537516986049910576551282076245490090389328944075868508455133942304583236903222948165808559332123348274797826204144723168738177180919299881250404026184124858368

/-- State of `dip::MinMaxAccumulator`. -/
structure MinMaxAccumulator where
  min_ : dfloat
  max_ : dfloat
deriving DecidableEq

/-- Default-constructed `MinMaxAccumulator`:
`min_ = std::numeric_limits< dfloat >::max()`,
`max_ = std::numeric_limits< dfloat >::lowest()`. -/
def MinMaxAccumulator.init : MinMaxAccumulator :=
  { min_ := dfloatMax, max_ := -dfloatMax }

/-- Translation of the single-sample `MinMaxAccumulator::Push`. -/
def MinMaxAccumulator.push (acc : MinMaxAccumulator) (x : dfloat) : MinMaxAccumulator :=
  { min_ := min acc.min_ x, max_ := max acc.max_ x }

/-- Translation of the pair `MinMaxAccumulator::Push( x, y )`: a single
`x > y` comparison drives one min update and one max update. -/
def MinMaxAccumulator.push2 (acc : MinMaxAccumulator) (x y : dfloat) :
    MinMaxAccumulator :=
  if y < x then { min_ := min acc.min_ y, max_ := max acc.max_ x }
  else { min_ := min acc.min_ x, max_ := max acc.max_ y }

/-- Accessor `MinMaxAccumulator::Minimum`. -/
def MinMaxAccumulator.Minimum (acc : MinMaxAccumulator) : dfloat := acc.min_

/-- Accessor `MinMaxAccumulator::Maximum`. -/
def MinMaxAccumulator.Maximum (acc : MinMaxAccumulator) : dfloat := acc.max_

/-- Translation of the signed `dip::div_ceil` (`numeric.h`).  C++ `/` on
`dip::sint` truncates toward zero, i.e. `Int.tdiv`. -/
def div_ceil (lhs rhs : ℤ) : ℤ :=
  if lhs * rhs = 0 then 0
  else if lhs * rhs < 0 then lhs.tdiv rhs
  else if lhs < 0 then (lhs + 1).tdiv rhs + 1
  else (lhs - 1).tdiv rhs + 1

/-- Translation of the signed `dip::div_floor`. -/
def div_floor (lhs rhs : ℤ) : ℤ :=
  if lhs * rhs = 0 then 0
  else if lhs * rhs < 0 then
    if lhs < 0 then (lhs + 1).tdiv rhs - 1
    else (lhs - 1).tdiv rhs - 1
  else lhs.tdiv rhs

/-- Translation of the signed `dip::div_round`:
`div_floor( lhs + rhs / 2, rhs )`. -/
def div_round (lhs rhs : ℤ) : ℤ := div_floor (lhs + rhs.tdiv 2) rhs

/-- Translation of `dip::pow10`: exact table for `|power| ≤ 6`, recursive
scaling by `1e6` (resp. `1e-6`) outside the table. -/
def pow10 (power : ℤ) : ℚ :=
  if h1 : power = -6 then 1 / 1000000
  else if h2 : power = -5 then 1 / 100000
  else if h3 : power = -4 then 1 / 10000
  else if h4 : power = -3 then 1 / 1000
  else if h5 : power = -2 then 1 / 100
  else if h6 : power = -1 then 1 / 10
  else if h7 : power = 0 then 1
  else if h8 : power = 1 then 10
  else if h9 : power = 2 then 100
  else if h10 : power = 3 then 1000
  else if h11 : power = 4 then 10000
  else if h12 : power = 5 then 100000
  else if h13 : power = 6 then 1000000
  else if h14 : 0 < power then 1000000 * pow10 (power - 6)
  else (1 / 1000000) * pow10 (power + 6)
termination_by power.natAbs
decreasing_by
  all_goals omega

/-- Translation of `dip::SymmetricEigenDecompositionPacked`.  The delegate
`SymmetricEigenDecomposition` (declared in `numeric.h`, defined elsewhere) is
abstract; the local `dfloat matrix[ 9 ]` buffer is a map from slot index to
`Option ℚ`, with `none` for the slots the function never writes.  `DIP_THROW`
is modelled by `Except.error`. -/
def SymmetricEigenDecompositionPacked {α : Type}
    (sed : ℕ → (Fin 9 → Option ℚ) → α) (n : ℕ) (input : ℕ → ℚ) :
    Except String α :=
  if n = 2 then
    Except.ok (sed 2
      ![some (input 0), some (input 2), none,
        some (input 1), none, none, none, none, none])
  else if n = 3 then
    Except.ok (sed 3
      ![some (input 0), some (input 3), some (input 4),
        none, some (input 1), some (input 5),
        none, none, some (input 2)])
  else
    Except.error "dip::SymmetricEigenDecompositionPacked only defined for n=2 or n=3"

/-- Per-slot scale factors computed by `FeatureGreyMu::Initialize`: first the
squared pixel size of each dimension (diagonal slots, names `Mu_xx`, `Mu_yy`,
`Mu_zz`), then `ps ii * ps jj` for `1 ≤ ii < nD`, `jj < ii` (slots named
`Mu_yx`, `Mu_zx`, `Mu_zy`).  `ps i` is the magnitude of dimension `i`'s pixel
size after the `PhysicalQuantity::Pixel()` default (magnitude 1) is applied to
uncalibrated dimensions. -/
def GreyMuScales (nD : ℕ) (ps : ℕ → ℚ) : List ℚ :=
  ((List.range nD).map fun i => ps i * ps i) ++
    ((List.range nD).drop 1).flatMap fun i => (List.range i).map fun j => ps i * ps j

/-- Translation of `FeatureGreyMu::Finish`.  `data` is the per-object record
(2D layout `x y xx xy yy sum`, 3D layout `x y z xx xy xz yy yz zz sum`), and
`scales` the list built by `Initialize`.  The zero-weight branch writes one
zero per scale slot and performs no division. -/
def GreyMuFinish (nD : ℕ) (scales : List ℚ) (data : ℕ → ℚ) : List ℚ :=
  let nOut : ℕ := if nD = 2 then 3 else 6
  let nValues : ℕ := nD + nOut + 1
  let n : ℚ := data (nValues - 1)
  if n = 0 then List.replicate scales.length 0
  else if nD = 2 then
    let x : ℚ := data 0 / n
    let y : ℚ := data 1 / n
    [(data 4 / n - y * y) * scales.getD 0 0,
     -(data 3 / n - x * y) * scales.getD 1 0,
     (data 2 / n - x * x) * scales.getD 2 0]
  else
    let x : ℚ := data 0 / n
    let y : ℚ := data 1 / n
    let z : ℚ := data 2 / n
    let xx : ℚ := data 3 / n - x * x
    let yy : ℚ := data 6 / n - y * y
    let zz : ℚ := data 8 / n - z * z
    [(yy + zz) * scales.getD 0 0,
     -(data 4 / n - x * y) * scales.getD 1 0,
     -(data 5 / n - x * z) * scales.getD 2 0,
     (xx + zz) * scales.getD 3 0,
     -(data 7 / n - y * z) * scales.getD 4 0,
     (xx + yy) * scales.getD 5 0]

end dip

namespace dip

/-- Sum of squares of a sample list (specification-side power sum). -/
def sumSq (l : List ℚ) : ℚ := (l.map fun x => x * x).sum

/-- Folding `StatisticsAccumulator::Push` over a whole sample list. -/
def StatisticsAccumulator.pushAll (acc : StatisticsAccumulator) (l : List ℚ) :
    StatisticsAccumulator :=
  l.foldl StatisticsAccumulator.push acc

/-- Folding `VarianceAccumulator::Push` over a whole sample list. -/
def VarianceAccumulator.pushAll (acc : VarianceAccumulator) (l : List ℚ) :
    VarianceAccumulator :=
  l.foldl VarianceAccumulator.push acc

/-- Link between a `StatisticsAccumulator` state and the sample list it has
seen, for the first two moments: the count is the list length, `m1_` the
sample mean, and `m2_` the centered second-moment sum, both expressed through
the power sums (with the `x / 0 = 0` convention making the empty case the
all-zero state). -/
def StatisticsAccumulator.Summarizes (acc : StatisticsAccumulator)
    (l : List ℚ) : Prop :=
  acc.n_ = l.length ∧ acc.m1_ = l.sum / (l.length : ℚ) ∧
    acc.m2_ = sumSq l - l.sum ^ 2 / (l.length : ℚ)

/-- Counterpart of `StatisticsAccumulator.Summarizes` for
`VarianceAccumulator`. -/
def VarianceAccumulator.Summarizes (acc : VarianceAccumulator)
    (l : List ℚ) : Prop :=
  acc.n_ = l.length ∧ acc.m1_ = l.sum / (l.length : ℚ) ∧
    acc.m2_ = sumSq l - l.sum ^ 2 / (l.length : ℚ)

/-- States of a `StatisticsAccumulator` reachable from the default-constructed
state by `Push` and `operator+` (the merges), as quantified by C3. -/
inductive StatisticsAccumulator.Reachable : StatisticsAccumulator → Prop
  | init : StatisticsAccumulator.Reachable StatisticsAccumulator.init
  | push (acc : StatisticsAccumulator) (x : ℚ) :
      StatisticsAccumulator.Reachable acc → StatisticsAccumulator.Reachable (acc.push x)
  | combine (a b : StatisticsAccumulator) :
      StatisticsAccumulator.Reachable a → StatisticsAccumulator.Reachable b →
      StatisticsAccumulator.Reachable (a.combine b)

/-- Specification, following C3, of the three higher-moment accessors on one
accumulator state: `Variance` returns 0 for `Number() ≤ 1` and otherwise the
second-moment sum over `Number() - 1`; `Skewness` returns 0 for
`Number() ≤ 2` or a vanishing second-moment sum and otherwise the
bias-adjusted sample-skewness formula (with `pow( Variance(), 1.5 )` spelled
as the cube of the real square root); `ExcessKurtosis` likewise for
`Number() ≤ 3`; and every divisor appearing in a formula branch is nonzero,
so no accessor ever divides by zero. -/
def StatsAccessorSpec (pow15 : ℚ → ℝ) (acc : StatisticsAccumulator) : Prop :=
  (acc.Number ≤ 1 → acc.Variance = 0)
  ∧ (1 < acc.Number →
      acc.Variance = acc.m2_ / ((acc.Number : ℚ) - 1) ∧ ((acc.Number : ℚ) - 1) ≠ 0)
  ∧ (acc.Number ≤ 2 ∨ acc.m2_ = 0 → acc.Skewness pow15 = 0)
  ∧ (2 < acc.Number → acc.m2_ ≠ 0 →
      acc.Skewness pow15 =
        (acc.Number : ℝ) * (acc.Number : ℝ) / (((acc.Number : ℝ) - 1) * ((acc.Number : ℝ) - 2))
          * ((acc.m3_ : ℝ) / ((acc.Number : ℝ) * Real.sqrt (acc.Variance : ℝ) ^ 3))
      ∧ (acc.Number : ℝ) ≠ 0 ∧ ((acc.Number : ℝ) - 1) ≠ 0 ∧ ((acc.Number : ℝ) - 2) ≠ 0
      ∧ (acc.Number : ℝ) * Real.sqrt (acc.Variance : ℝ) ^ 3 ≠ 0)
  ∧ (acc.Number ≤ 3 ∨ acc.m2_ = 0 → acc.ExcessKurtosis = 0)
  ∧ (3 < acc.Number → acc.m2_ ≠ 0 →
      acc.ExcessKurtosis =
        ((acc.Number : ℚ) - 1) / (((acc.Number : ℚ) - 2) * ((acc.Number : ℚ) - 3))
          * (((acc.Number : ℚ) + 1) * (acc.Number : ℚ) * acc.m4_ / (acc.m2_ * acc.m2_)
              - 3 * ((acc.Number : ℚ) - 1))
      ∧ ((acc.Number : ℚ) - 2) * ((acc.Number : ℚ) - 3) ≠ 0 ∧ acc.m2_ * acc.m2_ ≠ 0)

/-- One call to one of the two `MinMaxAccumulator::Push` overloads. -/
inductive MinMaxPush
  | one (x : ℚ)
  | two (x y : ℚ)

/-- Apply one push call to a `MinMaxAccumulator` state. -/
def MinMaxAccumulator.applyPush (acc : MinMaxAccumulator) : MinMaxPush → MinMaxAccumulator
  | MinMaxPush.one x => acc.push x
  | MinMaxPush.two x y => acc.push2 x y

/-- Run a sequence of push calls from a given state. -/
def MinMaxAccumulator.runPushes (acc : MinMaxAccumulator) (ops : List MinMaxPush) :
    MinMaxAccumulator :=
  ops.foldl MinMaxAccumulator.applyPush acc

/-- Values delivered by one push call. -/
def MinMaxPush.values : MinMaxPush → List ℚ
  | MinMaxPush.one x => [x]
  | MinMaxPush.two x y => [x, y]

/-- All values delivered by a sequence of push calls. -/
def MinMaxPush.allValues (ops : List MinMaxPush) : List ℚ :=
  ops.flatMap MinMaxPush.values

/-- Concrete pixel-size magnitudes `(2, 3, 5)` for the three dimensions of a
3D `GreyMu` example. -/
def greyMuPsExample : ℕ → ℚ := fun i => if i = 0 then 2 else if i = 1 then 3 else 5

/-- Concrete per-object record for a 3D `GreyMu` example: total weight 1 and
accumulated `xy` cross moment 1, all other sums zero
(layout `x y z xx xy xz yy yz zz sum`). -/
def greyMuDataExample : ℕ → ℚ := fun k => if k = 4 then 1 else if k = 9 then 1 else 0

theorem sumSq_nil : sumSq [] = 0 := rfl

theorem dfloatMax_eq : dfloatMax = (2 ^ 53 - 1) * 2 ^ 971 := by
  norm_num [dfloatMax]

theorem sumSq_append (l1 l2 : List ℚ) : sumSq (l1 ++ l2) = sumSq l1 + sumSq l2 := by
  simp [sumSq]

theorem StatisticsAccumulator.stats_summarizes_init :
    StatisticsAccumulator.init.Summarizes [] := by
  refine ⟨rfl, by simp [init], by simp [init, sumSq]⟩

theorem VarianceAccumulator.var_summarizes_init :
    VarianceAccumulator.init.Summarizes [] := by
  refine ⟨rfl, by simp [init], by simp [init, sumSq]⟩

theorem StatisticsAccumulator.stats_summarizes_push {acc : StatisticsAccumulator}
    {l : List ℚ} (x : ℚ) (h : acc.Summarizes l) :
    (acc.push x).Summarizes (l ++ [x]) := by
  obtain ⟨hn, h1, h2⟩ := h
  by_cases hl : l = []
  · subst hl
    simp only [List.length_nil, Nat.cast_zero, List.sum_nil, div_zero, zero_div,
      sumSq_nil, zero_pow, sub_zero, zero_sub] at hn h1 h2
    refine ⟨by simp [push, hn], ?_, ?_⟩
    · simp [push, hn, h1]
    · simp [push, hn, h1, h2, sumSq_append, sumSq]
      ring
  · have hlen : (l.length : ℚ) ≠ 0 :=
      Nat.cast_ne_zero.mpr (fun h0 => hl (List.length_eq_zero.mp h0))
    have hlen1 : ((l.length : ℚ) + 1) ≠ 0 := by positivity
    refine ⟨by simp [push, hn], ?_, ?_⟩
    · show acc.m1_ + (x - acc.m1_) / ((acc.n_ + 1 : ℕ) : ℚ) = _
      rw [hn, h1]
      simp only [List.sum_append, List.length_append, List.sum_cons,
        List.sum_nil, List.length_cons, List.length_nil, add_zero]
      push_cast
      field_simp
      ring
    · show acc.m2_ + (x - acc.m1_) * ((x - acc.m1_) / ((acc.n_ + 1 : ℕ) : ℚ))
          * ((acc.n_ + 1 - 1 : ℕ) : ℚ) = _
      rw [hn, h1, h2]
      simp only [Nat.add_sub_cancel, List.sum_append, List.length_append,
        List.sum_cons, List.sum_nil, List.length_cons, List.length_nil,
        add_zero, sumSq_append, sumSq, List.map_cons, List.map_nil]
      push_cast
      field_simp
      ring

theorem VarianceAccumulator.var_summarizes_push {acc : VarianceAccumulator}
    {l : List ℚ} (x : ℚ) (h : acc.Summarizes l) :
    (acc.push x).Summarizes (l ++ [x]) := by
  obtain ⟨hn, h1, h2⟩ := h
  by_cases hl : l = []
  · subst hl
    simp only [List.length_nil, Nat.cast_zero, List.sum_nil, div_zero, zero_div,
      sumSq_nil, zero_pow, sub_zero, zero_sub] at hn h1 h2
    refine ⟨by simp [push, hn], ?_, ?_⟩
    · simp [push, hn, h1]
    · simp [push, hn, h1, h2, sumSq_append, sumSq]
      ring
  · have hlen : (l.length : ℚ) ≠ 0 :=
      Nat.cast_ne_zero.mpr (fun h0 => hl (List.length_eq_zero.mp h0))
    have hlen1 : ((l.length : ℚ) + 1) ≠ 0 := by positivity
    refine ⟨by simp [push, hn], ?_, ?_⟩
    · show acc.m1_ + (x - acc.m1_) / ((acc.n_ + 1 : ℕ) : ℚ) = _
      rw [hn, h1]
      simp only [List.sum_append, List.length_append, List.sum_cons,
        List.sum_nil, List.length_cons, List.length_nil, add_zero]
      push_cast
      field_simp
      ring
    · show acc.m2_ + (x - acc.m1_) *
          (x - (acc.m1_ + (x - acc.m1_) / ((acc.n_ + 1 : ℕ) : ℚ))) = _
      rw [hn, h1, h2]
      simp only [List.sum_append, List.length_append, List.sum_cons,
        List.sum_nil, List.length_cons, List.length_nil, add_zero,
        sumSq_append, sumSq, List.map_cons, List.map_nil]
      push_cast
      field_simp
      ring

theorem StatisticsAccumulator.stats_summarizes_pushAll {acc : StatisticsAccumulator}
    {l : List ℚ} (l2 : List ℚ) (h : acc.Summarizes l) :
    (acc.pushAll l2).Summarizes (l ++ l2) := by
  induction l2 generalizing acc l with
  | nil => simpa [pushAll]
  | cons y ys ih =>
      have h' := StatisticsAccumulator.stats_summarizes_push y h
      have := ih h'
      simpa [pushAll, List.append_assoc] using this

theorem VarianceAccumulator.var_summarizes_pushAll {acc : VarianceAccumulator}
    {l : List ℚ} (l2 : List ℚ) (h : acc.Summarizes l) :
    (acc.pushAll l2).Summarizes (l ++ l2) := by
  induction l2 generalizing acc l with
  | nil => simpa [pushAll]
  | cons y ys ih =>
      have h' := VarianceAccumulator.var_summarizes_push y h
      have := ih h'
      simpa [pushAll, List.append_assoc] using this

end dip

namespace dip

theorem StatisticsAccumulator.stats_summarizes_combine {a b : StatisticsAccumulator}
    {l1 l2 : List ℚ} (ha : a.Summarizes l1) (hb : b.Summarizes l2) :
    (a.combine b).Summarizes (l1 ++ l2) := by
  obtain ⟨han, ha1, ha2⟩ := ha
  obtain ⟨hbn, hb1, hb2⟩ := hb
  rcases eq_or_ne l1 [] with h1 | h1 <;> rcases eq_or_ne l2 [] with h2 | h2
  · subst h1; subst h2
    simp only [List.length_nil, Nat.cast_zero, List.sum_nil, div_zero, zero_div,
      sumSq_nil, zero_pow, sub_zero, zero_sub, ne_eq, OfNat.ofNat_ne_zero,
      not_false_eq_true] at han ha1 ha2 hbn hb1 hb2
    refine ⟨by simp [combine, han, hbn], ?_, ?_⟩
    · simp [combine, han, hbn, ha1, hb1]
    · simp [combine, han, hbn, ha1, hb1, ha2, hb2, sumSq_nil]
  · subst h1
    simp only [List.length_nil, Nat.cast_zero, List.sum_nil, div_zero, zero_div,
      sumSq_nil, zero_pow, sub_zero, zero_sub] at han ha1 ha2
    have hlen2 : (l2.length : ℚ) ≠ 0 :=
      Nat.cast_ne_zero.mpr (fun h0 => h2 (List.length_eq_zero.mp h0))
    refine ⟨by simp [combine, han, hbn], ?_, ?_⟩
    · show ((a.n_ : ℚ) * a.m1_ + (b.n_ : ℚ) * b.m1_) / ((a.n_ + b.n_ : ℕ) : ℚ) = _
      rw [han, hbn, ha1, hb1]
      simp only [List.nil_append, Nat.cast_zero, zero_mul, zero_add, Nat.zero_add]
      field_simp
    · show a.m2_ + b.m2_ + (b.m1_ - a.m1_) * (b.m1_ - a.m1_)
          * ((a.n_ * b.n_ : ℕ) : ℚ) / ((a.n_ + b.n_ : ℕ) : ℚ) = _
      rw [han, hbn, ha1, ha2, hb2]
      simp
  · subst h2
    simp only [List.length_nil, Nat.cast_zero, List.sum_nil, div_zero, zero_div,
      sumSq_nil, zero_pow, sub_zero, zero_sub] at hbn hb1 hb2
    have hlen1 : (l1.length : ℚ) ≠ 0 :=
      Nat.cast_ne_zero.mpr (fun h0 => h1 (List.length_eq_zero.mp h0))
    refine ⟨by simp [combine, han, hbn], ?_, ?_⟩
    · show ((a.n_ : ℚ) * a.m1_ + (b.n_ : ℚ) * b.m1_) / ((a.n_ + b.n_ : ℕ) : ℚ) = _
      rw [han, hbn, ha1, hb1]
      simp only [List.append_nil, Nat.cast_zero, zero_mul, add_zero, Nat.add_zero]
      field_simp
    · show a.m2_ + b.m2_ + (b.m1_ - a.m1_) * (b.m1_ - a.m1_)
          * ((a.n_ * b.n_ : ℕ) : ℚ) / ((a.n_ + b.n_ : ℕ) : ℚ) = _
      rw [han, hbn, hb1, ha2, hb2]
      simp
  · have hlen1 : (l1.length : ℚ) ≠ 0 :=
      Nat.cast_ne_zero.mpr (fun h0 => h1 (List.length_eq_zero.mp h0))
    have hlen2 : (l2.length : ℚ) ≠ 0 :=
      Nat.cast_ne_zero.mpr (fun h0 => h2 (List.length_eq_zero.mp h0))
    have hpos1 : (0 : ℚ) < l1.length :=
      lt_of_le_of_ne (Nat.cast_nonneg _) (Ne.symm hlen1)
    have hpos2 : (0 : ℚ) < l2.length :=
      lt_of_le_of_ne (Nat.cast_nonneg _) (Ne.symm hlen2)
    have hlen12 : ((l1.length : ℚ) + (l2.length : ℚ)) ≠ 0 := by positivity
    refine ⟨by simp [combine, han, hbn], ?_, ?_⟩
    · show ((a.n_ : ℚ) * a.m1_ + (b.n_ : ℚ) * b.m1_) / ((a.n_ + b.n_ : ℕ) : ℚ) = _
      rw [han, hbn, ha1, hb1]
      simp only [List.sum_append, List.length_append]
      push_cast
      field_simp
    · show a.m2_ + b.m2_ + (b.m1_ - a.m1_) * (b.m1_ - a.m1_)
          * ((a.n_ * b.n_ : ℕ) : ℚ) / ((a.n_ + b.n_ : ℕ) : ℚ) = _
      rw [han, hbn, ha1, hb1, ha2, hb2]
      simp only [List.sum_append, List.length_append, sumSq_append]
      push_cast
      field_simp
      ring

theorem VarianceAccumulator.var_summarizes_combine {a b : VarianceAccumulator}
    {l1 l2 : List ℚ} (ha : a.Summarizes l1) (hb : b.Summarizes l2) :
    (a.combine b).Summarizes (l1 ++ l2) := by
  obtain ⟨han, ha1, ha2⟩ := ha
  obtain ⟨hbn, hb1, hb2⟩ := hb
  rcases eq_or_ne l1 [] with h1 | h1 <;> rcases eq_or_ne l2 [] with h2 | h2
  · subst h1; subst h2
    simp only [List.length_nil, Nat.cast_zero, List.sum_nil, div_zero, zero_div,
      sumSq_nil, zero_pow, sub_zero, zero_sub, ne_eq, OfNat.ofNat_ne_zero,
      not_false_eq_true] at han ha1 ha2 hbn hb1 hb2
    refine ⟨by simp [combine, han, hbn], ?_, ?_⟩
    · simp [combine, han, hbn, ha1, hb1]
    · simp [combine, han, hbn, ha1, hb1, ha2, hb2, sumSq_nil]
  · subst h1
    simp only [List.length_nil, Nat.cast_zero, List.sum_nil, div_zero, zero_div,
      sumSq_nil, zero_pow, sub_zero, zero_sub] at han ha1 ha2
    have hlen2 : (l2.length : ℚ) ≠ 0 :=
      Nat.cast_ne_zero.mpr (fun h0 => h2 (List.length_eq_zero.mp h0))
    refine ⟨by simp [combine, han, hbn], ?_, ?_⟩
    · show ((a.n_ : ℚ) * a.m1_ + (b.n_ : ℚ) * b.m1_) / ((a.n_ + b.n_ : ℕ) : ℚ) = _
      rw [han, hbn, ha1, hb1]
      simp only [List.nil_append, Nat.cast_zero, zero_mul, zero_add, Nat.zero_add]
      field_simp
    · show a.m2_ + b.m2_ + (b.m1_ - a.m1_) * (b.m1_ - a.m1_)
          * ((a.n_ * b.n_ : ℕ) : ℚ) / ((a.n_ + b.n_ : ℕ) : ℚ) = _
      rw [han, hbn, ha1, ha2, hb2]
      simp
  · subst h2
    simp only [List.length_nil, Nat.cast_zero, List.sum_nil, div_zero, zero_div,
      sumSq_nil, zero_pow, sub_zero, zero_sub] at hbn hb1 hb2
    have hlen1 : (l1.length : ℚ) ≠ 0 :=
      Nat.cast_ne_zero.mpr (fun h0 => h1 (List.length_eq_zero.mp h0))
    refine ⟨by simp [combine, han, hbn], ?_, ?_⟩
    · show ((a.n_ : ℚ) * a.m1_ + (b.n_ : ℚ) * b.m1_) / ((a.n_ + b.n_ : ℕ) : ℚ) = _
      rw [han, hbn, ha1, hb1]
      simp only [List.append_nil, Nat.cast_zero, zero_mul, add_zero, Nat.add_zero]
      field_simp
    · show a.m2_ + b.m2_ + (b.m1_ - a.m1_) * (b.m1_ - a.m1_)
          * ((a.n_ * b.n_ : ℕ) : ℚ) / ((a.n_ + b.n_ : ℕ) : ℚ) = _
      rw [han, hbn, hb1, ha2, hb2]
      simp
  · have hlen1 : (l1.length : ℚ) ≠ 0 :=
      Nat.cast_ne_zero.mpr (fun h0 => h1 (List.length_eq_zero.mp h0))
    have hlen2 : (l2.length : ℚ) ≠ 0 :=
      Nat.cast_ne_zero.mpr (fun h0 => h2 (List.length_eq_zero.mp h0))
    have hpos1 : (0 : ℚ) < l1.length :=
      lt_of_le_of_ne (Nat.cast_nonneg _) (Ne.symm hlen1)
    have hpos2 : (0 : ℚ) < l2.length :=
      lt_of_le_of_ne (Nat.cast_nonneg _) (Ne.symm hlen2)
    have hlen12 : ((l1.length : ℚ) + (l2.length : ℚ)) ≠ 0 := by positivity
    refine ⟨by simp [combine, han, hbn], ?_, ?_⟩
    · show ((a.n_ : ℚ) * a.m1_ + (b.n_ : ℚ) * b.m1_) / ((a.n_ + b.n_ : ℕ) : ℚ) = _
      rw [han, hbn, ha1, hb1]
      simp only [List.sum_append, List.length_append]
      push_cast
      field_simp
    · show a.m2_ + b.m2_ + (b.m1_ - a.m1_) * (b.m1_ - a.m1_)
          * ((a.n_ * b.n_ : ℕ) : ℚ) / ((a.n_ + b.n_ : ℕ) : ℚ) = _
      rw [han, hbn, ha1, hb1, ha2, hb2]
      simp only [List.sum_append, List.length_append, sumSq_append]
      push_cast
      field_simp
      ring

end dip

namespace dip

theorem StatisticsAccumulator.stats_summarizes_congr {acc : StatisticsAccumulator}
    {l l' : List ℚ} (h : acc.Summarizes l) (hlen : l.length = l'.length)
    (hsum : l.sum = l'.sum) (hsq : sumSq l = sumSq l') : acc.Summarizes l' := by
  obtain ⟨hn, h1, h2⟩ := h
  exact ⟨hlen ▸ hn, by rw [h1, hsum, hlen], by rw [h2, hsum, hsq, hlen]⟩

theorem VarianceAccumulator.var_summarizes_congr {acc : VarianceAccumulator}
    {l l' : List ℚ} (h : acc.Summarizes l) (hlen : l.length = l'.length)
    (hsum : l.sum = l'.sum) (hsq : sumSq l = sumSq l') : acc.Summarizes l' := by
  obtain ⟨hn, h1, h2⟩ := h
  exact ⟨hlen ▸ hn, by rw [h1, hsum, hlen], by rw [h2, hsum, hsq, hlen]⟩

theorem StatisticsAccumulator.stats_accessors_eq_of_summarizes
    {x y : StatisticsAccumulator} {l : List ℚ}
    (hx : x.Summarizes l) (hy : y.Summarizes l) :
    x.Number = y.Number ∧ x.Mean = y.Mean ∧ x.Variance = y.Variance := by
  refine ⟨?_, ?_, ?_⟩
  · show x.n_ = y.n_
    rw [hx.1, hy.1]
  · show x.m1_ = y.m1_
    rw [hx.2.1, hy.2.1]
  · simp only [Variance, hx.1, hy.1, hx.2.2, hy.2.2]

theorem VarianceAccumulator.var_accessors_eq_of_summarizes
    {x y : VarianceAccumulator} {l : List ℚ}
    (hx : x.Summarizes l) (hy : y.Summarizes l) :
    x.Number = y.Number ∧ x.Mean = y.Mean ∧ x.Variance = y.Variance := by
  refine ⟨?_, ?_, ?_⟩
  · show x.n_ = y.n_
    rw [hx.1, hy.1]
  · show x.m1_ = y.m1_
    rw [hx.2.1, hy.2.1]
  · simp only [Variance, hx.1, hy.1, hx.2.2, hy.2.2]

theorem StatisticsAccumulator.stats_summarizes_pushAll_init (l : List ℚ) :
    (StatisticsAccumulator.init.pushAll l).Summarizes l := by
  simpa using StatisticsAccumulator.stats_summarizes_pushAll l StatisticsAccumulator.stats_summarizes_init

theorem VarianceAccumulator.var_summarizes_pushAll_init (l : List ℚ) :
    (VarianceAccumulator.init.pushAll l).Summarizes l := by
  simpa using VarianceAccumulator.var_summarizes_pushAll l VarianceAccumulator.var_summarizes_init

/-- C1: for any two finite sample lists `a` and `b`, merging the accumulator
over `a` with the accumulator over `b` via `operator+` — in either order —
yields the same `Number()`, `Mean()` and `Variance()` as pushing all of `a`
followed by all of `b` into one accumulator, exactly, under exact rational
arithmetic; this holds for `StatisticsAccumulator` and for
`VarianceAccumulator`. -/
theorem merge_matches_single_accumulator_first_two_moments (a b : List ℚ) :
    ((StatisticsAccumulator.init.pushAll a + StatisticsAccumulator.init.pushAll b).Number
        = (StatisticsAccumulator.init.pushAll (a ++ b)).Number
      ∧ (StatisticsAccumulator.init.pushAll a + StatisticsAccumulator.init.pushAll b).Mean
        = (StatisticsAccumulator.init.pushAll (a ++ b)).Mean
      ∧ (StatisticsAccumulator.init.pushAll a + StatisticsAccumulator.init.pushAll b).Variance
        = (StatisticsAccumulator.init.pushAll (a ++ b)).Variance)
    ∧ ((StatisticsAccumulator.init.pushAll b + StatisticsAccumulator.init.pushAll a).Number
        = (StatisticsAccumulator.init.pushAll (a ++ b)).Number
      ∧ (StatisticsAccumulator.init.pushAll b + StatisticsAccumulator.init.pushAll a).Mean
        = (StatisticsAccumulator.init.pushAll (a ++ b)).Mean
      ∧ (StatisticsAccumulator.init.pushAll b + StatisticsAccumulator.init.pushAll a).Variance
        = (StatisticsAccumulator.init.pushAll (a ++ b)).Variance)
    ∧ ((VarianceAccumulator.init.pushAll a + VarianceAccumulator.init.pushAll b).Number
        = (VarianceAccumulator.init.pushAll (a ++ b)).Number
      ∧ (VarianceAccumulator.init.pushAll a + VarianceAccumulator.init.pushAll b).Mean
        = (VarianceAccumulator.init.pushAll (a ++ b)).Mean
      ∧ (VarianceAccumulator.init.pushAll a + VarianceAccumulator.init.pushAll b).Variance
        = (VarianceAccumulator.init.pushAll (a ++ b)).Variance)
    ∧ ((VarianceAccumulator.init.pushAll b + VarianceAccumulator.init.pushAll a).Number
        = (VarianceAccumulator.init.pushAll (a ++ b)).Number
      ∧ (VarianceAccumulator.init.pushAll b + VarianceAccumulator.init.pushAll a).Mean
        = (VarianceAccumulator.init.pushAll (a ++ b)).Mean
      ∧ (VarianceAccumulator.init.pushAll b + VarianceAccumulator.init.pushAll a).Variance
        = (VarianceAccumulator.init.pushAll (a ++ b)).Variance) := by
  have hSa := StatisticsAccumulator.stats_summarizes_pushAll_init a
  have hSb := StatisticsAccumulator.stats_summarizes_pushAll_init b
  have hSc := StatisticsAccumulator.stats_summarizes_pushAll_init (a ++ b)
  have hVa := VarianceAccumulator.var_summarizes_pushAll_init a
  have hVb := VarianceAccumulator.var_summarizes_pushAll_init b
  have hVc := VarianceAccumulator.var_summarizes_pushAll_init (a ++ b)
  have hSab : (StatisticsAccumulator.init.pushAll a
      + StatisticsAccumulator.init.pushAll b).Summarizes (a ++ b) :=
    StatisticsAccumulator.stats_summarizes_combine hSa hSb
  have hSba : (StatisticsAccumulator.init.pushAll b
      + StatisticsAccumulator.init.pushAll a).Summarizes (a ++ b) :=
    StatisticsAccumulator.stats_summarizes_congr
      (StatisticsAccumulator.stats_summarizes_combine hSb hSa)
      (by simp [Nat.add_comm]) (by simp [add_comm]) (by simp [sumSq_append, add_comm])
  have hVab : (VarianceAccumulator.init.pushAll a
      + VarianceAccumulator.init.pushAll b).Summarizes (a ++ b) :=
    VarianceAccumulator.var_summarizes_combine hVa hVb
  have hVba : (VarianceAccumulator.init.pushAll b
      + VarianceAccumulator.init.pushAll a).Summarizes (a ++ b) :=
    VarianceAccumulator.var_summarizes_congr
      (VarianceAccumulator.var_summarizes_combine hVb hVa)
      (by simp [Nat.add_comm]) (by simp [add_comm]) (by simp [sumSq_append, add_comm])
  exact ⟨StatisticsAccumulator.stats_accessors_eq_of_summarizes hSab hSc,
    StatisticsAccumulator.stats_accessors_eq_of_summarizes hSba hSc,
    VarianceAccumulator.var_accessors_eq_of_summarizes hVab hVc,
    VarianceAccumulator.var_accessors_eq_of_summarizes hVba hVc⟩

/-- C2: pushing the same sample list element by element into a
`VarianceAccumulator` and into a `StatisticsAccumulator` yields identical
`Mean()`, `Variance()` and `StandardDeviation()` (the latter for any function
standing in for `std::sqrt`), exactly, under exact rational arithmetic. -/
theorem variance_and_statistics_accumulators_agree (l : List ℚ) (sqrt : ℚ → ℝ) :
    (VarianceAccumulator.init.pushAll l).Mean
      = (StatisticsAccumulator.init.pushAll l).Mean
    ∧ (VarianceAccumulator.init.pushAll l).Variance
      = (StatisticsAccumulator.init.pushAll l).Variance
    ∧ (VarianceAccumulator.init.pushAll l).StandardDeviation sqrt
      = (StatisticsAccumulator.init.pushAll l).StandardDeviation sqrt := by
  have hV := VarianceAccumulator.var_summarizes_pushAll_init l
  have hS := StatisticsAccumulator.stats_summarizes_pushAll_init l
  have hvar : (VarianceAccumulator.init.pushAll l).Variance
      = (StatisticsAccumulator.init.pushAll l).Variance := by
    simp only [VarianceAccumulator.Variance, StatisticsAccumulator.Variance,
      hV.1, hS.1, hV.2.2, hS.2.2]
  refine ⟨?_, hvar, ?_⟩
  · show (VarianceAccumulator.init.pushAll l).m1_
        = (StatisticsAccumulator.init.pushAll l).m1_
    rw [hV.2.1, hS.2.1]
  · show sqrt (VarianceAccumulator.init.pushAll l).Variance
        = sqrt (StatisticsAccumulator.init.pushAll l).Variance
    rw [hvar]

end dip

namespace dip

/-- C10: a default-constructed (empty) `StatisticsAccumulator` or
`VarianceAccumulator` is a two-sided identity for `operator+` on every
accumulator state holding at least one sample, exactly, field for field. -/
theorem empty_accumulator_merge_identity :
    (∀ A : StatisticsAccumulator, 1 ≤ A.Number →
        A + StatisticsAccumulator.init = A ∧ StatisticsAccumulator.init + A = A)
    ∧ (∀ B : VarianceAccumulator, 1 ≤ B.Number →
        B + VarianceAccumulator.init = B ∧ VarianceAccumulator.init + B = B) := by
  constructor
  · rintro ⟨n, m1, m2, m3, m4⟩ hA
    have hn : ((n : ℕ) : ℚ) ≠ 0 := Nat.cast_ne_zero.mpr (Nat.one_le_iff_ne_zero.mp hA)
    constructor
    · show StatisticsAccumulator.combine _ _ = _
      simp only [StatisticsAccumulator.combine, StatisticsAccumulator.init,
        StatisticsAccumulator.mk.injEq, Nat.mul_zero, Nat.zero_mul, Nat.add_zero,
        Nat.cast_zero, Nat.cast_mul, mul_zero, zero_mul, add_zero, zero_add,
        sub_zero, zero_sub, zero_div, mul_div_assoc]
      refine ⟨trivial, ?_, by ring_nf, by ring_nf, by ring_nf⟩
      field_simp
    · show StatisticsAccumulator.combine _ _ = _
      simp only [StatisticsAccumulator.combine, StatisticsAccumulator.init,
        StatisticsAccumulator.mk.injEq, Nat.mul_zero, Nat.zero_mul, Nat.zero_add,
        Nat.cast_zero, Nat.cast_mul, mul_zero, zero_mul, add_zero, zero_add,
        sub_zero, zero_sub, zero_div, mul_div_assoc]
      refine ⟨trivial, ?_, by ring_nf, by ring_nf, by ring_nf⟩
      field_simp
  · rintro ⟨n, m1, m2⟩ hB
    have hn : ((n : ℕ) : ℚ) ≠ 0 := Nat.cast_ne_zero.mpr (Nat.one_le_iff_ne_zero.mp hB)
    constructor
    · show VarianceAccumulator.combine _ _ = _
      simp only [VarianceAccumulator.combine, VarianceAccumulator.init,
        VarianceAccumulator.mk.injEq, Nat.mul_zero, Nat.add_zero, Nat.cast_zero,
        mul_zero, zero_mul, add_zero, zero_add, sub_zero, zero_sub, zero_div]
      refine ⟨trivial, ?_, by ring_nf⟩
      field_simp
    · show VarianceAccumulator.combine _ _ = _
      simp only [VarianceAccumulator.combine, VarianceAccumulator.init,
        VarianceAccumulator.mk.injEq, Nat.zero_mul, Nat.zero_add, Nat.cast_zero,
        mul_zero, zero_mul, add_zero, zero_add, sub_zero, zero_sub, zero_div]
      refine ⟨trivial, ?_, by ring_nf⟩
      field_simp

/-- Witness for C10 at the concrete states `⟨2, 5, 7, 1, 3⟩` and `⟨1, 4, 9⟩`. -/
theorem empty_accumulator_merge_identity_witness :
    ((⟨2, 5, 7, 1, 3⟩ : StatisticsAccumulator) + StatisticsAccumulator.init
        = (⟨2, 5, 7, 1, 3⟩ : StatisticsAccumulator)
      ∧ StatisticsAccumulator.init + (⟨2, 5, 7, 1, 3⟩ : StatisticsAccumulator)
        = (⟨2, 5, 7, 1, 3⟩ : StatisticsAccumulator))
    ∧ ((⟨1, 4, 9⟩ : VarianceAccumulator) + VarianceAccumulator.init
        = (⟨1, 4, 9⟩ : VarianceAccumulator)
      ∧ VarianceAccumulator.init + (⟨1, 4, 9⟩ : VarianceAccumulator)
        = (⟨1, 4, 9⟩ : VarianceAccumulator)) :=
  ⟨empty_accumulator_merge_identity.1 ⟨2, 5, 7, 1, 3⟩ (by decide),
   empty_accumulator_merge_identity.2 ⟨1, 4, 9⟩ (by decide)⟩

end dip

namespace dip

theorem StatisticsAccumulator.m2_nonneg_of_reachable {acc : StatisticsAccumulator}
    (h : acc.Reachable) : 0 ≤ acc.m2_ := by
  induction h with
  | init => exact le_refl 0
  | push acc x _ ih =>
      show 0 ≤ acc.m2_ + (x - acc.m1_) * ((x - acc.m1_) / ((acc.n_ + 1 : ℕ) : ℚ))
          * ((acc.n_ + 1 - 1 : ℕ) : ℚ)
      refine add_nonneg ih ?_
      rw [show (x - acc.m1_) * ((x - acc.m1_) / ((acc.n_ + 1 : ℕ) : ℚ))
          * ((acc.n_ + 1 - 1 : ℕ) : ℚ)
        = (x - acc.m1_) ^ 2 * ((acc.n_ + 1 - 1 : ℕ) : ℚ) / ((acc.n_ + 1 : ℕ) : ℚ) by ring]
      positivity
  | combine a b _ _ iha ihb =>
      show 0 ≤ a.m2_ + b.m2_ + (b.m1_ - a.m1_) * (b.m1_ - a.m1_)
          * ((a.n_ * b.n_ : ℕ) : ℚ) / ((a.n_ + b.n_ : ℕ) : ℚ)
      refine add_nonneg (add_nonneg iha ihb) ?_
      rw [show (b.m1_ - a.m1_) * (b.m1_ - a.m1_) * ((a.n_ * b.n_ : ℕ) : ℚ)
          / ((a.n_ + b.n_ : ℕ) : ℚ)
        = (b.m1_ - a.m1_) ^ 2 * ((a.n_ * b.n_ : ℕ) : ℚ) / ((a.n_ + b.n_ : ℕ) : ℚ) by ring]
      positivity

/-- C3: on every reachable `StatisticsAccumulator` state, `Variance`,
`Skewness` and `ExcessKurtosis` follow their guarded formulas — zero when
`Number()` is at most 1, 2, resp. 3 or (for the latter two) when the
second-moment sum is exactly 0, the bias-adjusted formulas otherwise — and no
divisor is ever zero.  `pow15` stands for `std::pow( . , 1.5 )`, constrained
to the real power on nonnegative arguments. -/
theorem statistics_accessors_follow_guarded_formulas (pow15 : ℚ → ℝ)
    (hpow : ∀ v : ℚ, 0 ≤ v → pow15 v = Real.sqrt (v : ℝ) ^ 3)
    (acc : StatisticsAccumulator) (hacc : acc.Reachable) :
    StatsAccessorSpec pow15 acc := by
  have hm2 : 0 ≤ acc.m2_ := StatisticsAccumulator.m2_nonneg_of_reachable hacc
  refine ⟨?_, ?_, ?_, ?_, ?_, ?_⟩
  · intro h
    have h' : ¬1 < acc.n_ := Nat.not_lt.mpr h
    simp [StatisticsAccumulator.Variance, h']
  · intro h
    have h' : 1 < acc.n_ := h
    have h1 : (1 : ℕ) ≤ acc.n_ := le_of_lt h'
    constructor
    · simp only [StatisticsAccumulator.Variance, StatisticsAccumulator.Number, if_pos h']
      rw [Nat.cast_sub h1, Nat.cast_one]
    · have : (2 : ℚ) ≤ (acc.n_ : ℚ) := by exact_mod_cast h'
      show ((acc.n_ : ℚ) - 1) ≠ 0
      linarith
  · intro h
    have hneg : ¬(2 < acc.n_ ∧ acc.m2_ ≠ 0) := by
      rcases h with h | h
      · exact fun hc => absurd hc.1 (Nat.not_lt.mpr h)
      · exact fun hc => hc.2 h
    simp [StatisticsAccumulator.Skewness, hneg]
  · intro hn hm
    have hn' : 2 < acc.n_ := hn
    have hvar : 0 < acc.Variance := by
      have h2 : 0 < acc.m2_ := lt_of_le_of_ne hm2 (Ne.symm hm)
      have hd : (0 : ℚ) < ((acc.n_ - 1 : ℕ) : ℚ) := by
        have h1 : (1 : ℕ) ≤ acc.n_ - 1 := by omega
        exact_mod_cast Nat.lt_of_lt_of_le Nat.zero_lt_one h1
      simp only [StatisticsAccumulator.Variance, if_pos (by omega : 1 < acc.n_)]
      exact div_pos h2 hd
    have hvarR : (0 : ℝ) < (acc.Variance : ℝ) := by exact_mod_cast hvar
    have hsqrt : 0 < Real.sqrt (acc.Variance : ℝ) := Real.sqrt_pos.mpr hvarR
    have hnR : (0 : ℝ) < (acc.n_ : ℝ) := by
      have h0 : 0 < acc.n_ := by omega
      exact_mod_cast h0
    refine ⟨?_, ?_, ?_, ?_, ?_⟩
    · simp only [StatisticsAccumulator.Skewness, StatisticsAccumulator.Number,
        if_pos (And.intro hn' hm)]
      rw [hpow _ (le_of_lt hvar)]
    · exact ne_of_gt hnR
    · have h3 : (3 : ℝ) ≤ (acc.n_ : ℝ) := by exact_mod_cast hn'
      show ((acc.n_ : ℝ) - 1) ≠ 0
      linarith
    · have h3 : (3 : ℝ) ≤ (acc.n_ : ℝ) := by exact_mod_cast hn'
      show ((acc.n_ : ℝ) - 2) ≠ 0
      linarith
    · show (acc.n_ : ℝ) * Real.sqrt (acc.Variance : ℝ) ^ 3 ≠ 0
      positivity
  · intro h
    have hneg : ¬(3 < acc.n_ ∧ acc.m2_ ≠ 0) := by
      rcases h with h | h
      · exact fun hc => absurd hc.1 (Nat.not_lt.mpr h)
      · exact fun hc => hc.2 h
    simp [StatisticsAccumulator.ExcessKurtosis, hneg]
  · intro hn hm
    have hn' : 3 < acc.n_ := hn
    refine ⟨?_, ?_, ?_⟩
    · simp only [StatisticsAccumulator.ExcessKurtosis, StatisticsAccumulator.Number,
        if_pos (And.intro hn' hm)]
    · have h4 : (4 : ℚ) ≤ (acc.n_ : ℚ) := by exact_mod_cast hn'
      show ((acc.n_ : ℚ) - 2) * ((acc.n_ : ℚ) - 3) ≠ 0
      have h2 : ((acc.n_ : ℚ) - 2) ≠ 0 := by linarith
      have h3 : ((acc.n_ : ℚ) - 3) ≠ 0 := by linarith
      exact mul_ne_zero h2 h3
    · exact mul_ne_zero hm hm

/-- Witness for C3 at the reachable state obtained by pushing `0`, `1`, `2`,
with `pow15` the real power itself. -/
theorem statistics_accessors_follow_guarded_formulas_witness :
    StatsAccessorSpec (fun v => Real.sqrt (v : ℝ) ^ 3)
      (((StatisticsAccumulator.init.push 0).push 1).push 2) :=
  statistics_accessors_follow_guarded_formulas _ (fun _ _ => rfl) _
    (StatisticsAccumulator.Reachable.push _ 2
      (StatisticsAccumulator.Reachable.push _ 1
        (StatisticsAccumulator.Reachable.push _ 0 StatisticsAccumulator.Reachable.init)))

end dip

namespace dip

theorem MinMaxAccumulator.push2_eq_push_push (acc : MinMaxAccumulator) (x y : ℚ) :
    acc.push2 x y = (acc.push x).push y := by
  unfold push2 push
  split_ifs with h
  · have hxy : y ≤ x := le_of_lt h
    simp [MinMaxAccumulator.mk.injEq, min_assoc, max_assoc,
      min_eq_right hxy, max_eq_left hxy]
  · have hxy : x ≤ y := not_lt.mp h
    simp [MinMaxAccumulator.mk.injEq, min_assoc, max_assoc,
      min_eq_left hxy, max_eq_right hxy]

theorem foldl_min_le_init (l : List ℚ) (a : ℚ) : l.foldl min a ≤ a := by
  induction l generalizing a with
  | nil => simp
  | cons x xs ih => exact le_trans (ih (min a x)) (min_le_left a x)

theorem foldl_min_le_mem (l : List ℚ) (a : ℚ) : ∀ v ∈ l, l.foldl min a ≤ v := by
  induction l generalizing a with
  | nil => simp
  | cons x xs ih =>
      intro v hv
      rcases List.mem_cons.mp hv with rfl | hv
      · exact le_trans (foldl_min_le_init xs (min a v)) (min_le_right a v)
      · exact ih (min a x) v hv

theorem foldl_min_eq_or_mem (l : List ℚ) (a : ℚ) :
    l.foldl min a = a ∨ l.foldl min a ∈ l := by
  induction l generalizing a with
  | nil => exact Or.inl rfl
  | cons x xs ih =>
      rw [List.foldl_cons]
      rcases ih (min a x) with h | h
      · rcases le_total a x with hax | hax
        · exact Or.inl (by rw [h, min_eq_left hax])
        · exact Or.inr (by rw [h, min_eq_right hax]; exact List.mem_cons_self x xs)
      · exact Or.inr (List.mem_cons_of_mem _ h)

theorem le_foldl_max_init (l : List ℚ) (a : ℚ) : a ≤ l.foldl max a := by
  induction l generalizing a with
  | nil => simp
  | cons x xs ih => exact le_trans (le_max_left a x) (ih (max a x))

theorem mem_le_foldl_max (l : List ℚ) (a : ℚ) : ∀ v ∈ l, v ≤ l.foldl max a := by
  induction l generalizing a with
  | nil => simp
  | cons x xs ih =>
      intro v hv
      rcases List.mem_cons.mp hv with rfl | hv
      · exact le_trans (le_max_right a v) (le_foldl_max_init xs (max a v))
      · exact ih (max a x) v hv

theorem foldl_max_eq_or_mem (l : List ℚ) (a : ℚ) :
    l.foldl max a = a ∨ l.foldl max a ∈ l := by
  induction l generalizing a with
  | nil => exact Or.inl rfl
  | cons x xs ih =>
      rw [List.foldl_cons]
      rcases ih (max a x) with h | h
      · rcases le_total a x with hax | hax
        · exact Or.inr (by rw [h, max_eq_right hax]; exact List.mem_cons_self x xs)
        · exact Or.inl (by rw [h, max_eq_left hax])
      · exact Or.inr (List.mem_cons_of_mem _ h)

theorem MinMaxAccumulator.runPushes_fields (acc : MinMaxAccumulator)
    (ops : List MinMaxPush) :
    (acc.runPushes ops).min_ = (MinMaxPush.allValues ops).foldl min acc.min_
    ∧ (acc.runPushes ops).max_ = (MinMaxPush.allValues ops).foldl max acc.max_ := by
  induction ops generalizing acc with
  | nil => exact ⟨rfl, rfl⟩
  | cons op rest ih =>
      cases op with
      | one x =>
          simpa [runPushes, applyPush, MinMaxPush.allValues, MinMaxPush.values, push]
            using ih (acc.push x)
      | two x y =>
          have h2 := MinMaxAccumulator.push2_eq_push_push acc x y
          have := ih ((acc.push x).push y)
          simpa [runPushes, applyPush, MinMaxPush.allValues, MinMaxPush.values, push, h2]
            using this

theorem MinMaxPush.allValues_ne_nil {ops : List MinMaxPush} (h : ops ≠ []) :
    MinMaxPush.allValues ops ≠ [] := by
  cases ops with
  | nil => exact absurd rfl h
  | cons op rest => cases op <;> simp [allValues, values]

end dip

namespace dip

/-- C7: the pair `Push(x, y)` leaves a `MinMaxAccumulator` in exactly the
state of `Push(x)` followed by `Push(y)`; starting from the initial state
(`min_` the largest double, `max_` its negation), after any non-empty
sequence of single and pair pushes of double-range values, `Minimum()` is the
least pushed value and `Maximum()` the greatest; in particular pushing `3`,
the pair `(7, 1)`, then `5` gives `Minimum() = 1` and `Maximum() = 7`. -/
theorem minmax_pair_push_and_extrema :
    (∀ (acc : MinMaxAccumulator) (x y : ℚ), acc.push2 x y = (acc.push x).push y)
    ∧ (∀ ops : List MinMaxPush, ops ≠ [] →
        (∀ v ∈ MinMaxPush.allValues ops, -dfloatMax ≤ v ∧ v ≤ dfloatMax) →
        ((MinMaxAccumulator.init.runPushes ops).Minimum ∈ MinMaxPush.allValues ops
          ∧ ∀ v ∈ MinMaxPush.allValues ops,
              (MinMaxAccumulator.init.runPushes ops).Minimum ≤ v)
        ∧ ((MinMaxAccumulator.init.runPushes ops).Maximum ∈ MinMaxPush.allValues ops
          ∧ ∀ v ∈ MinMaxPush.allValues ops,
              v ≤ (MinMaxAccumulator.init.runPushes ops).Maximum))
    ∧ ((MinMaxAccumulator.init.runPushes
          [MinMaxPush.one 3, MinMaxPush.two 7 1, MinMaxPush.one 5]).Minimum = 1
        ∧ (MinMaxAccumulator.init.runPushes
          [MinMaxPush.one 3, MinMaxPush.two 7 1, MinMaxPush.one 5]).Maximum = 7) := by
  refine ⟨MinMaxAccumulator.push2_eq_push_push, ?_, by decide, by decide⟩
  intro ops hne hbound
  have hf := MinMaxAccumulator.runPushes_fields MinMaxAccumulator.init ops
  have hvne := MinMaxPush.allValues_ne_nil hne
  obtain ⟨w, hw⟩ := List.exists_mem_of_ne_nil _ hvne
  have hminf : (MinMaxAccumulator.init.runPushes ops).Minimum
      = (MinMaxPush.allValues ops).foldl min dfloatMax := hf.1
  have hmaxf : (MinMaxAccumulator.init.runPushes ops).Maximum
      = (MinMaxPush.allValues ops).foldl max (-dfloatMax) := hf.2
  constructor
  · constructor
    · rcases foldl_min_eq_or_mem (MinMaxPush.allValues ops) dfloatMax with h | h
      · have h1 : w ≤ dfloatMax := (hbound w hw).2
        have h2 : dfloatMax ≤ w := by
          have := foldl_min_le_mem (MinMaxPush.allValues ops) dfloatMax w hw
          rwa [h] at this
        rw [hminf, h, ← le_antisymm h1 h2]
        exact hw
      · rw [hminf]
        exact h
    · intro v hv
      rw [hminf]
      exact foldl_min_le_mem _ _ v hv
  · constructor
    · rcases foldl_max_eq_or_mem (MinMaxPush.allValues ops) (-dfloatMax) with h | h
      · have h1 : -dfloatMax ≤ w := (hbound w hw).1
        have h2 : w ≤ -dfloatMax := by
          have := mem_le_foldl_max (MinMaxPush.allValues ops) (-dfloatMax) w hw
          rwa [h] at this
        rw [hmaxf, h, ← le_antisymm h2 h1]
        exact hw
      · rw [hmaxf]
        exact h
    · intro v hv
      rw [hmaxf]
      exact mem_le_foldl_max _ _ v hv

/-- Witness for C7 on the push sequence `3`, pair `(7, 1)`, `5`. -/
theorem minmax_pair_push_and_extrema_witness :
    ((MinMaxAccumulator.init.runPushes
        [MinMaxPush.one 3, MinMaxPush.two 7 1, MinMaxPush.one 5]).Minimum
        ∈ MinMaxPush.allValues [MinMaxPush.one 3, MinMaxPush.two 7 1, MinMaxPush.one 5]
      ∧ ∀ v ∈ MinMaxPush.allValues [MinMaxPush.one 3, MinMaxPush.two 7 1, MinMaxPush.one 5],
          (MinMaxAccumulator.init.runPushes
            [MinMaxPush.one 3, MinMaxPush.two 7 1, MinMaxPush.one 5]).Minimum ≤ v)
    ∧ ((MinMaxAccumulator.init.runPushes
        [MinMaxPush.one 3, MinMaxPush.two 7 1, MinMaxPush.one 5]).Maximum
        ∈ MinMaxPush.allValues [MinMaxPush.one 3, MinMaxPush.two 7 1, MinMaxPush.one 5]
      ∧ ∀ v ∈ MinMaxPush.allValues [MinMaxPush.one 3, MinMaxPush.two 7 1, MinMaxPush.one 5],
          v ≤ (MinMaxAccumulator.init.runPushes
            [MinMaxPush.one 3, MinMaxPush.two 7 1, MinMaxPush.one 5]).Maximum) :=
  minmax_pair_push_and_extrema.2.1
    [MinMaxPush.one 3, MinMaxPush.two 7 1, MinMaxPush.one 5]
    (List.cons_ne_nil _ _) (by decide)

end dip

namespace dip

theorem pow10_eq_zpow (p : ℤ) : pow10 p = (10 : ℚ) ^ p := by
  have H : ∀ k : ℕ, ∀ q : ℤ, q.natAbs = k → pow10 q = (10 : ℚ) ^ q := by
    intro k
    induction k using Nat.strong_induction_on with
    | _ k ih =>
        intro q hq
        rw [pow10.eq_def]
        rcases eq_or_ne q (-6) with rfl | h1
        · rw [dif_pos rfl]; norm_num
        rw [dif_neg h1]
        rcases eq_or_ne q (-5) with rfl | h2
        · rw [dif_pos rfl]; norm_num
        rw [dif_neg h2]
        rcases eq_or_ne q (-4) with rfl | h3
        · rw [dif_pos rfl]; norm_num
        rw [dif_neg h3]
        rcases eq_or_ne q (-3) with rfl | h4
        · rw [dif_pos rfl]; norm_num
        rw [dif_neg h4]
        rcases eq_or_ne q (-2) with rfl | h5
        · rw [dif_pos rfl]; norm_num
        rw [dif_neg h5]
        rcases eq_or_ne q (-1) with rfl | h6
        · rw [dif_pos rfl]; norm_num
        rw [dif_neg h6]
        rcases eq_or_ne q 0 with rfl | h7
        · rw [dif_pos rfl]; norm_num
        rw [dif_neg h7]
        rcases eq_or_ne q 1 with rfl | h8
        · rw [dif_pos rfl]; norm_num
        rw [dif_neg h8]
        rcases eq_or_ne q 2 with rfl | h9
        · rw [dif_pos rfl]; norm_num
        rw [dif_neg h9]
        rcases eq_or_ne q 3 with rfl | h10
        · rw [dif_pos rfl]; norm_num
        rw [dif_neg h10]
        rcases eq_or_ne q 4 with rfl | h11
        · rw [dif_pos rfl]; norm_num
        rw [dif_neg h11]
        rcases eq_or_ne q 5 with rfl | h12
        · rw [dif_pos rfl]; norm_num
        rw [dif_neg h12]
        rcases eq_or_ne q 6 with rfl | h13
        · rw [dif_pos rfl]; norm_num
        rw [dif_neg h13]
        by_cases h14 : 0 < q
        · rw [dif_pos h14]
          have h7q : (7 : ℤ) ≤ q := by omega
          have hr := ih (q - 6).natAbs (by omega) (q - 6) rfl
          rw [hr]
          have hsplit : (10 : ℚ) ^ q = (10 : ℚ) ^ (q - 6) * (10 : ℚ) ^ (6 : ℤ) := by
            rw [← zpow_add₀ (by norm_num : (10 : ℚ) ≠ 0)]
            congr 1
            ring
          rw [hsplit]
          norm_num [mul_comm]
        · rw [dif_neg h14]
          have hmq : q ≤ -7 := by omega
          have hr := ih (q + 6).natAbs (by omega) (q + 6) rfl
          rw [hr]
          have hsplit : (10 : ℚ) ^ q = (10 : ℚ) ^ (q + 6) * (10 : ℚ) ^ (-6 : ℤ) := by
            rw [← zpow_add₀ (by norm_num : (10 : ℚ) ≠ 0)]
            congr 1
            ring
          rw [hsplit]
          norm_num [mul_comm]
  exact H p.natAbs p rfl

/-- C9: `pow10` returns exactly `10 ^ n` on the table range `|n| ≤ 6`
(in particular `pow10 6 = 1e6`), satisfies the recursive scaling equations
`pow10 n = 1e6 * pow10 (n - 6)` for `n > 6` and
`pow10 n = 1e-6 * pow10 (n + 6)` for `n < -6` (the recursion being total by
construction), and under exact arithmetic `pow10 25` and `pow10 (-21)` equal
`10 ^ 25` and `10 ^ (-21)` — a fortiori within any relative tolerance. -/
theorem pow10_table_and_recursive_scaling :
    (∀ p : ℤ, -6 ≤ p → p ≤ 6 → pow10 p = (10 : ℚ) ^ p)
    ∧ (∀ p : ℤ, 6 < p → pow10 p = 1000000 * pow10 (p - 6))
    ∧ (∀ p : ℤ, p < -6 → pow10 p = 1 / 1000000 * pow10 (p + 6))
    ∧ pow10 6 = 1000000
    ∧ pow10 25 = (10 : ℚ) ^ (25 : ℤ)
    ∧ pow10 (-21) = (10 : ℚ) ^ (-21 : ℤ) := by
  refine ⟨fun p _ _ => pow10_eq_zpow p, ?_, ?_, ?_, ?_, ?_⟩
  · intro p hp
    rw [pow10_eq_zpow, pow10_eq_zpow]
    have hsplit : (10 : ℚ) ^ p = (10 : ℚ) ^ (p - 6) * (10 : ℚ) ^ (6 : ℤ) := by
      rw [← zpow_add₀ (by norm_num : (10 : ℚ) ≠ 0)]
      congr 1
      ring
    rw [hsplit]
    norm_num [mul_comm]
  · intro p hp
    rw [pow10_eq_zpow, pow10_eq_zpow]
    have hsplit : (10 : ℚ) ^ p = (10 : ℚ) ^ (p + 6) * (10 : ℚ) ^ (-6 : ℤ) := by
      rw [← zpow_add₀ (by norm_num : (10 : ℚ) ≠ 0)]
      congr 1
      ring
    rw [hsplit]
    norm_num [mul_comm]
  · rw [pow10_eq_zpow]
    norm_num
  · exact pow10_eq_zpow 25
  · exact pow10_eq_zpow (-21)

/-- Witness for C9 at `p = 4`, `p = 7` and `p = -7`. -/
theorem pow10_table_and_recursive_scaling_witness :
    pow10 4 = (10 : ℚ) ^ (4 : ℤ)
    ∧ pow10 7 = 1000000 * pow10 1
    ∧ pow10 (-7) = 1 / 1000000 * pow10 (-1) :=
  ⟨pow10_table_and_recursive_scaling.1 4 (by decide) (by decide),
   pow10_table_and_recursive_scaling.2.1 7 (by decide),
   pow10_table_and_recursive_scaling.2.2.1 (-7) (by decide)⟩

end dip

namespace dip

theorem ediv_eq_neg_ediv_neg_sub_one {a b : ℤ} (hb : 0 < b) :
    a / b = -((-a - 1) / b) - 1 := by
  have h0 : b ≠ 0 := ne_of_gt hb
  have hq : b * ((-a - 1) / b) + (-a - 1) % b = -a - 1 := Int.ediv_add_emod _ _
  have hr0 : 0 ≤ (-a - 1) % b := Int.emod_nonneg _ h0
  have hrb : (-a - 1) % b < b := Int.emod_lt_of_pos _ hb
  have huniq : (b - 1 - (-a - 1) % b) + b * (-((-a - 1) / b) - 1) = a
      ∧ 0 ≤ b - 1 - (-a - 1) % b ∧ b - 1 - (-a - 1) % b < b := by
    refine ⟨?_, by omega, by omega⟩
    have hx : b - 1 - (-a - 1) % b + b * (-((-a - 1) / b) - 1)
        = -(b * ((-a - 1) / b) + (-a - 1) % b) - 1 := by ring
    rw [hx, hq]
    ring
  exact ((Int.ediv_emod_unique hb).mpr huniq).1

theorem floor_intCast_div_of_pos {a b : ℤ} (hb : 0 < b) :
    ⌊(a : ℚ) / (b : ℚ)⌋ = a / b := by
  lift b to ℕ using hb.le with d
  exact_mod_cast Rat.floor_intCast_div_natCast a d

theorem ceil_intCast_div_of_pos {a b : ℤ} (hb : 0 < b) :
    ⌈(a : ℚ) / (b : ℚ)⌉ = -((-a) / b) := by
  have h1 : ⌈(a : ℚ) / (b : ℚ)⌉ = -⌊-((a : ℚ) / (b : ℚ))⌋ := by
    rw [show (a : ℚ) / (b : ℚ) = -(-((a : ℚ) / (b : ℚ))) by ring, Int.ceil_neg]
    rw [neg_neg]
  rw [h1, show -((a : ℚ) / (b : ℚ)) = ((-a : ℤ) : ℚ) / (b : ℚ) by push_cast; ring,
    floor_intCast_div_of_pos hb]

theorem div_floor_eq_floor {a b : ℤ} (ha : a ≠ 0) (hb : b ≠ 0) :
    div_floor a b = ⌊(a : ℚ) / (b : ℚ)⌋ := by
  rcases ha.lt_or_lt with haneg | hapos <;> rcases hb.lt_or_lt with hbneg | hbpos
  · obtain ⟨d, rfl⟩ : ∃ d, a = -d := ⟨-a, by ring⟩
    obtain ⟨c, rfl⟩ : ∃ c, b = -c := ⟨-b, by ring⟩
    have hd : 0 < d := by omega
    have hc : 0 < c := by omega
    have hprod : 0 < -d * -c := by rw [neg_mul_neg]; exact mul_pos hd hc
    unfold div_floor
    rw [if_neg hprod.ne', if_neg (not_lt.mpr hprod.le)]
    rw [Int.neg_tdiv_neg, Int.tdiv_eq_ediv hd.le hc.le]
    rw [show ((-d : ℤ) : ℚ) / ((-c : ℤ) : ℚ) = ((d : ℤ) : ℚ) / ((c : ℤ) : ℚ) by
      push_cast; rw [neg_div_neg_eq]]
    rw [floor_intCast_div_of_pos hc]
  · obtain ⟨d, rfl⟩ : ∃ d, a = -d := ⟨-a, by ring⟩
    have hd : 0 < d := by omega
    have hprod : -d * b < 0 := by rw [neg_mul]; exact neg_lt_zero.mpr (mul_pos hd hbpos)
    unfold div_floor
    rw [if_neg hprod.ne, if_pos hprod, if_pos (by omega : (-d : ℤ) < 0)]
    rw [show (-d : ℤ) + 1 = -(d - 1) by ring, Int.neg_tdiv,
      Int.tdiv_eq_ediv (by omega) hbpos.le]
    rw [floor_intCast_div_of_pos hbpos,
      show (-d : ℤ) / b = -((- -d - 1) / b) - 1 from ediv_eq_neg_ediv_neg_sub_one hbpos,
      show - -d - 1 = d - 1 by ring]
  · obtain ⟨c, rfl⟩ : ∃ c, b = -c := ⟨-b, by ring⟩
    have hc : 0 < c := by omega
    have hprod : a * -c < 0 := by rw [mul_neg]; exact neg_lt_zero.mpr (mul_pos hapos hc)
    unfold div_floor
    rw [if_neg hprod.ne, if_pos hprod, if_neg (not_lt.mpr hapos.le)]
    rw [Int.tdiv_neg, Int.tdiv_eq_ediv (by omega) hc.le]
    rw [show (a : ℚ) / ((-c : ℤ) : ℚ) = ((-a : ℤ) : ℚ) / ((c : ℤ) : ℚ) by
      push_cast; ring]
    rw [floor_intCast_div_of_pos hc,
      show (-a : ℤ) / c = -((- -a - 1) / c) - 1 from ediv_eq_neg_ediv_neg_sub_one hc,
      show - -a - 1 = a - 1 by ring]
  · have hprod : 0 < a * b := mul_pos hapos hbpos
    unfold div_floor
    rw [if_neg hprod.ne', if_neg (not_lt.mpr hprod.le)]
    rw [Int.tdiv_eq_ediv hapos.le hbpos.le, floor_intCast_div_of_pos hbpos]

theorem div_ceil_eq_ceil {a b : ℤ} (ha : a ≠ 0) (hb : b ≠ 0) :
    div_ceil a b = ⌈(a : ℚ) / (b : ℚ)⌉ := by
  rcases ha.lt_or_lt with haneg | hapos <;> rcases hb.lt_or_lt with hbneg | hbpos
  · obtain ⟨d, rfl⟩ : ∃ d, a = -d := ⟨-a, by ring⟩
    obtain ⟨c, rfl⟩ : ∃ c, b = -c := ⟨-b, by ring⟩
    have hd : 0 < d := by omega
    have hc : 0 < c := by omega
    have hprod : 0 < -d * -c := by rw [neg_mul_neg]; exact mul_pos hd hc
    unfold div_ceil
    rw [if_neg hprod.ne', if_neg (not_lt.mpr hprod.le), if_pos (by omega : (-d : ℤ) < 0)]
    rw [show (-d : ℤ) + 1 = -(d - 1) by ring, Int.neg_tdiv, Int.tdiv_neg, neg_neg,
      Int.tdiv_eq_ediv (by omega) hc.le]
    rw [show ((-d : ℤ) : ℚ) / ((-c : ℤ) : ℚ) = ((d : ℤ) : ℚ) / ((c : ℤ) : ℚ) by
      push_cast; rw [neg_div_neg_eq]]
    rw [ceil_intCast_div_of_pos hc,
      show (-d : ℤ) / c = -((- -d - 1) / c) - 1 from ediv_eq_neg_ediv_neg_sub_one hc,
      show - -d - 1 = d - 1 by ring]
    ring
  · obtain ⟨d, rfl⟩ : ∃ d, a = -d := ⟨-a, by ring⟩
    have hd : 0 < d := by omega
    have hprod : -d * b < 0 := by rw [neg_mul]; exact neg_lt_zero.mpr (mul_pos hd hbpos)
    unfold div_ceil
    rw [if_neg hprod.ne, if_pos hprod]
    rw [Int.neg_tdiv, Int.tdiv_eq_ediv hd.le hbpos.le]
    rw [ceil_intCast_div_of_pos hbpos, neg_neg]
  · obtain ⟨c, rfl⟩ : ∃ c, b = -c := ⟨-b, by ring⟩
    have hc : 0 < c := by omega
    have hprod : a * -c < 0 := by rw [mul_neg]; exact neg_lt_zero.mpr (mul_pos hapos hc)
    unfold div_ceil
    rw [if_neg hprod.ne, if_pos hprod]
    rw [Int.tdiv_neg, Int.tdiv_eq_ediv hapos.le hc.le]
    rw [show (a : ℚ) / ((-c : ℤ) : ℚ) = -((a : ℚ) / ((c : ℤ) : ℚ)) by push_cast; ring]
    rw [Int.ceil_neg, floor_intCast_div_of_pos hc]
  · have hprod : 0 < a * b := mul_pos hapos hbpos
    unfold div_ceil
    rw [if_neg hprod.ne', if_neg (not_lt.mpr hprod.le), if_neg (not_lt.mpr hapos.le)]
    rw [Int.tdiv_eq_ediv (by omega) hbpos.le]
    rw [ceil_intCast_div_of_pos hbpos,
      show (-a : ℤ) / b = -((- -a - 1) / b) - 1 from ediv_eq_neg_ediv_neg_sub_one hbpos,
      show - -a - 1 = a - 1 by ring]
    ring

end dip

namespace dip

theorem div_floor_half_eq_zero (b : ℤ) : div_floor (b.tdiv 2) b = 0 := by
  rcases eq_or_ne b 0 with rfl | hb
  · simp [div_floor]
  rcases eq_or_ne (b.tdiv 2) 0 with ht | ht
  · rw [ht]
    simp [div_floor]
  rcases hb.lt_or_lt with hbneg | hbpos
  · obtain ⟨c, rfl⟩ : ∃ c, b = -c := ⟨-b, by ring⟩
    have hc : 0 < c := by omega
    rw [div_floor_eq_floor ht hb]
    rw [show ((-c : ℤ).tdiv 2 : ℤ) = -(c.tdiv 2) from Int.neg_tdiv c 2]
    rw [show ((-(c.tdiv 2) : ℤ) : ℚ) / ((-c : ℤ) : ℚ)
        = ((c.tdiv 2 : ℤ) : ℚ) / ((c : ℤ) : ℚ) by push_cast; rw [neg_div_neg_eq]]
    rw [floor_intCast_div_of_pos hc, Int.tdiv_eq_ediv hc.le (by norm_num)]
    exact Int.ediv_eq_zero_of_lt (by omega) (by omega)
  · rw [div_floor_eq_floor ht hb, floor_intCast_div_of_pos hbpos,
      Int.tdiv_eq_ediv hbpos.le (by norm_num)]
    exact Int.ediv_eq_zero_of_lt (by omega) (by omega)

/-- C4: for nonzero signed operands, `div_floor` is the floor and `div_ceil`
the ceiling of the exact rational quotient (so the quotient is bracketed
between them); `div_round( a, b )` is literally `div_floor( a + b / 2, b )`
with C++ truncated division; when either operand is zero all three variants
return 0; and the literal table of check cases from the source tests holds,
negative-divisor cases mirroring sign. -/
theorem div_variants_match_floor_and_ceiling :
    (∀ a b : ℤ, a ≠ 0 → b ≠ 0 →
        div_floor a b = ⌊(a : ℚ) / (b : ℚ)⌋
        ∧ div_ceil a b = ⌈(a : ℚ) / (b : ℚ)⌉
        ∧ (div_floor a b : ℚ) ≤ (a : ℚ) / (b : ℚ)
        ∧ (a : ℚ) / (b : ℚ) ≤ (div_ceil a b : ℚ))
    ∧ (∀ a b : ℤ, div_round a b = div_floor (a + b.tdiv 2) b)
    ∧ (∀ a b : ℤ, a = 0 ∨ b = 0 →
        div_floor a b = 0 ∧ div_ceil a b = 0 ∧ div_round a b = 0)
    ∧ div_ceil 11 3 = 4 ∧ div_floor 11 3 = 3 ∧ div_round 11 3 = 4
    ∧ div_ceil (-11) 3 = -3 ∧ div_floor (-11) 3 = -4
    ∧ div_ceil 11 (-3) = -3 ∧ div_floor 11 (-3) = -4
    ∧ div_ceil (-11) (-3) = 4 ∧ div_floor (-11) (-3) = 3 := by
  refine ⟨?_, fun a b => rfl, ?_, by decide, by decide, by decide, by decide,
    by decide, by decide, by decide, by decide, by decide⟩
  · intro a b ha hb
    have hf := div_floor_eq_floor ha hb
    have hc := div_ceil_eq_ceil ha hb
    refine ⟨hf, hc, ?_, ?_⟩
    · rw [hf]
      exact Int.floor_le _
    · rw [hc]
      exact Int.le_ceil _
  · intro a b h
    rcases h with rfl | rfl
    · refine ⟨by simp [div_floor], by simp [div_ceil], ?_⟩
      show div_floor (0 + b.tdiv 2) b = 0
      rw [zero_add]
      exact div_floor_half_eq_zero b
    · exact ⟨by simp [div_floor], by simp [div_ceil],
        by simp [div_round, div_floor]⟩

/-- Witness for C4 at `a = 7, b = 3` and at the zero operand `a = 0, b = 5`. -/
theorem div_variants_match_floor_and_ceiling_witness :
    (div_floor 7 3 = ⌊((7 : ℤ) : ℚ) / ((3 : ℤ) : ℚ)⌋
      ∧ div_ceil 7 3 = ⌈((7 : ℤ) : ℚ) / ((3 : ℤ) : ℚ)⌉
      ∧ (div_floor 7 3 : ℚ) ≤ ((7 : ℤ) : ℚ) / ((3 : ℤ) : ℚ)
      ∧ ((7 : ℤ) : ℚ) / ((3 : ℤ) : ℚ) ≤ (div_ceil 7 3 : ℚ))
    ∧ (div_floor 0 5 = 0 ∧ div_ceil 0 5 = 0 ∧ div_round 0 5 = 0) :=
  ⟨div_variants_match_floor_and_ceiling.1 7 3 (by decide) (by decide),
   div_variants_match_floor_and_ceiling.2.2.1 0 5 (Or.inl rfl)⟩

end dip

namespace dip

/-- C5: `SymmetricEigenDecompositionPacked` signals an invalid-argument
failure exactly when `n` is neither 2 nor 3, producing no output in that
case; for `n = 2` (resp. `n = 3`) it writes the packed values
`{xx, yy, xy}` (resp. `{xx, yy, zz, xy, xz, yz}`) into the lower triangle of
the full `n × n` column-major buffer — entry `(i, j)` at offset `i + j * n` —
leaves every upper-triangle slot unwritten, and delegates the expanded
buffer to `SymmetricEigenDecomposition` (the abstract `sed`). -/
theorem packed_eigendecomposition_gate_and_expansion {α : Type}
    (sed : ℕ → (Fin 9 → Option ℚ) → α) :
    (∀ (n : ℕ) (input : ℕ → ℚ),
        (∃ e, SymmetricEigenDecompositionPacked sed n input = Except.error e)
          ↔ n ≠ 2 ∧ n ≠ 3)
    ∧ (∀ input : ℕ → ℚ, ∃ M : Fin 9 → Option ℚ,
        SymmetricEigenDecompositionPacked sed 2 input = Except.ok (sed 2 M)
        ∧ M ⟨0 + 0 * 2, by omega⟩ = some (input 0)
        ∧ M ⟨1 + 0 * 2, by omega⟩ = some (input 2)
        ∧ M ⟨1 + 1 * 2, by omega⟩ = some (input 1)
        ∧ M ⟨0 + 1 * 2, by omega⟩ = none)
    ∧ (∀ input : ℕ → ℚ, ∃ M : Fin 9 → Option ℚ,
        SymmetricEigenDecompositionPacked sed 3 input = Except.ok (sed 3 M)
        ∧ M ⟨0 + 0 * 3, by omega⟩ = some (input 0)
        ∧ M ⟨1 + 0 * 3, by omega⟩ = some (input 3)
        ∧ M ⟨2 + 0 * 3, by omega⟩ = some (input 4)
        ∧ M ⟨1 + 1 * 3, by omega⟩ = some (input 1)
        ∧ M ⟨2 + 1 * 3, by omega⟩ = some (input 5)
        ∧ M ⟨2 + 2 * 3, by omega⟩ = some (input 2)
        ∧ M ⟨0 + 1 * 3, by omega⟩ = none
        ∧ M ⟨0 + 2 * 3, by omega⟩ = none
        ∧ M ⟨1 + 2 * 3, by omega⟩ = none) := by
  refine ⟨?_, ?_, ?_⟩
  · intro n input
    constructor
    · rintro ⟨e, he⟩
      refine ⟨?_, ?_⟩ <;> rintro rfl <;>
        simp [SymmetricEigenDecompositionPacked] at he
    · rintro ⟨h2, h3⟩
      refine ⟨"dip::SymmetricEigenDecompositionPacked only defined for n=2 or n=3", ?_⟩
      unfold SymmetricEigenDecompositionPacked
      rw [if_neg h2, if_neg h3]
  · intro input
    refine ⟨_, rfl, rfl, rfl, rfl, rfl⟩
  · intro input
    refine ⟨_, rfl, rfl, rfl, rfl, rfl, rfl, rfl, rfl, rfl, rfl⟩

/-- C6: `FeatureGreyMu::Finish` on an object whose accumulated total weight
(the last slot of its record) is exactly 0 writes one zero to every output
slot — 3 slots in 2D, 6 in 3D — taking the guarded branch that performs no
division, so the zero-weight case yields a well-defined all-zero vector
rather than an error. -/
theorem greymu_finish_zero_weight (nD : ℕ) (ps : ℕ → ℚ) (data : ℕ → ℚ)
    (hdim : nD = 2 ∨ nD = 3)
    (hzero : data (nD + (if nD = 2 then 3 else 6) + 1 - 1) = 0) :
    GreyMuFinish nD (GreyMuScales nD ps) data
      = List.replicate (if nD = 2 then 3 else 6) 0 := by
  rcases hdim with rfl | rfl
  · have hz : data 5 = 0 := by simpa using hzero
    show (if data 5 = 0 then _ else _) = _
    rw [if_pos hz]
    rfl
  · have hz : data 9 = 0 := by simpa using hzero
    show (if data 9 = 0 then _ else _) = _
    rw [if_pos hz]
    rfl

/-- Witness for C6 at `nD = 3` with the all-zero record. -/
theorem greymu_finish_zero_weight_witness :
    GreyMuFinish 3 (GreyMuScales 3 (fun _ => 1)) (fun _ => 0)
      = List.replicate (if 3 = 2 then 3 else 6) 0 :=
  greymu_finish_zero_weight 3 (fun _ => 1) (fun _ => 0) (Or.inr rfl) rfl

end dip

namespace dip

theorem greymu_finish_3d_eval (ps : ℕ → ℚ) (data : ℕ → ℚ)
    (hW : data 9 ≠ 0) :
    GreyMuFinish 3 (GreyMuScales 3 ps) data =
      [((data 6 / data 9 - (data 1 / data 9) * (data 1 / data 9))
          + (data 8 / data 9 - (data 2 / data 9) * (data 2 / data 9))) * (ps 0 * ps 0),
       -(data 4 / data 9 - (data 0 / data 9) * (data 1 / data 9)) * (ps 1 * ps 1),
       -(data 5 / data 9 - (data 0 / data 9) * (data 2 / data 9)) * (ps 2 * ps 2),
       ((data 3 / data 9 - (data 0 / data 9) * (data 0 / data 9))
          + (data 8 / data 9 - (data 2 / data 9) * (data 2 / data 9))) * (ps 1 * ps 0),
       -(data 7 / data 9 - (data 1 / data 9) * (data 2 / data 9)) * (ps 2 * ps 0),
       ((data 3 / data 9 - (data 0 / data 9) * (data 0 / data 9))
          + (data 6 / data 9 - (data 1 / data 9) * (data 1 / data 9))) * (ps 2 * ps 1)] := by
  show (if data 9 = 0 then _ else _) = _
  rw [if_neg hW]
  rfl

/-- C8 (amended): for a 3D object with nonzero total weight, `Finish` writes
the structural grey-weighted inertia formulas — diagonals as sums of the
other two normalized second central moments in slots 0, 3, 5 and negated
normalized cross moments in slots 1, 2, 4 — but each output slot `k` carries
the slot scale `Initialize` stored at index `k` (in its naming order
`Mu_xx, Mu_yy, Mu_zz, Mu_yx, Mu_zx, Mu_zy`): `p0², p1², p2², p1·p0, p2·p0,
p2·p1`.  For the cross-moment slots 1, 2, 4 these are `p1², p2², p2·p0`,
not the products of the moment's own dimension pair. -/
theorem greymu_finish_3d_slot_scales (ps : ℕ → ℚ) (data : ℕ → ℚ)
    (hW : data 9 ≠ 0) :
    GreyMuFinish 3 (GreyMuScales 3 ps) data =
      [((data 6 / data 9 - (data 1 / data 9) * (data 1 / data 9))
          + (data 8 / data 9 - (data 2 / data 9) * (data 2 / data 9))) * (ps 0 * ps 0),
       -(data 4 / data 9 - (data 0 / data 9) * (data 1 / data 9)) * (ps 1 * ps 1),
       -(data 5 / data 9 - (data 0 / data 9) * (data 2 / data 9)) * (ps 2 * ps 2),
       ((data 3 / data 9 - (data 0 / data 9) * (data 0 / data 9))
          + (data 8 / data 9 - (data 2 / data 9) * (data 2 / data 9))) * (ps 1 * ps 0),
       -(data 7 / data 9 - (data 1 / data 9) * (data 2 / data 9)) * (ps 2 * ps 0),
       ((data 3 / data 9 - (data 0 / data 9) * (data 0 / data 9))
          + (data 6 / data 9 - (data 1 / data 9) * (data 1 / data 9))) * (ps 2 * ps 1)] :=
  greymu_finish_3d_eval ps data hW

/-- Witness for the amended C8 at pixel sizes `(2, 3, 5)` and the concrete
record `greyMuDataExample`. -/
theorem greymu_finish_3d_slot_scales_witness :
    GreyMuFinish 3 (GreyMuScales 3 greyMuPsExample) greyMuDataExample =
      [((greyMuDataExample 6 / greyMuDataExample 9
            - (greyMuDataExample 1 / greyMuDataExample 9)
              * (greyMuDataExample 1 / greyMuDataExample 9))
          + (greyMuDataExample 8 / greyMuDataExample 9
            - (greyMuDataExample 2 / greyMuDataExample 9)
              * (greyMuDataExample 2 / greyMuDataExample 9)))
          * (greyMuPsExample 0 * greyMuPsExample 0),
       -(greyMuDataExample 4 / greyMuDataExample 9
            - (greyMuDataExample 0 / greyMuDataExample 9)
              * (greyMuDataExample 1 / greyMuDataExample 9))
          * (greyMuPsExample 1 * greyMuPsExample 1),
       -(greyMuDataExample 5 / greyMuDataExample 9
            - (greyMuDataExample 0 / greyMuDataExample 9)
              * (greyMuDataExample 2 / greyMuDataExample 9))
          * (greyMuPsExample 2 * greyMuPsExample 2),
       ((greyMuDataExample 3 / greyMuDataExample 9
            - (greyMuDataExample 0 / greyMuDataExample 9)
              * (greyMuDataExample 0 / greyMuDataExample 9))
          + (greyMuDataExample 8 / greyMuDataExample 9
            - (greyMuDataExample 2 / greyMuDataExample 9)
              * (greyMuDataExample 2 / greyMuDataExample 9)))
          * (greyMuPsExample 1 * greyMuPsExample 0),
       -(greyMuDataExample 7 / greyMuDataExample 9
            - (greyMuDataExample 1 / greyMuDataExample 9)
              * (greyMuDataExample 2 / greyMuDataExample 9))
          * (greyMuPsExample 2 * greyMuPsExample 0),
       ((greyMuDataExample 3 / greyMuDataExample 9
            - (greyMuDataExample 0 / greyMuDataExample 9)
              * (greyMuDataExample 0 / greyMuDataExample 9))
          + (greyMuDataExample 6 / greyMuDataExample 9
            - (greyMuDataExample 1 / greyMuDataExample 9)
              * (greyMuDataExample 1 / greyMuDataExample 9)))
          * (greyMuPsExample 2 * greyMuPsExample 1)] :=
  greymu_finish_3d_slot_scales greyMuPsExample greyMuDataExample
    (by simp [greyMuDataExample])

/-- Counterexample to C8 as stated: with pixel sizes `(2, 3, 5)` and an
object of weight 1 whose only nonzero moment sum is the `xy` cross sum
(value 1), the code writes `-s_xy · p1² = -9` into output slot 1, while the
claimed scale — the product `p0 · p1` of the moment's dimension pair — would
give `-s_xy · p0 · p1 = -6`. -/
theorem greymu_offdiagonal_scale_counterexample :
    (GreyMuFinish 3 (GreyMuScales 3 greyMuPsExample) greyMuDataExample).getD 1 0 = -9
    ∧ -(greyMuDataExample 4 / greyMuDataExample 9
          - (greyMuDataExample 0 / greyMuDataExample 9)
            * (greyMuDataExample 1 / greyMuDataExample 9))
        * (greyMuPsExample 0 * greyMuPsExample 1) = -6
    ∧ ¬((GreyMuFinish 3 (GreyMuScales 3 greyMuPsExample) greyMuDataExample).getD 1 0
          = -(greyMuDataExample 4 / greyMuDataExample 9
              - (greyMuDataExample 0 / greyMuDataExample 9)
                * (greyMuDataExample 1 / greyMuDataExample 9))
            * (greyMuPsExample 0 * greyMuPsExample 1)) := by
  have h := greymu_finish_3d_eval greyMuPsExample greyMuDataExample
    (by simp [greyMuDataExample])
  refine ⟨?_, ?_, ?_⟩
  · rw [h]
    norm_num [greyMuPsExample, greyMuDataExample, List.getD]
  · norm_num [greyMuPsExample, greyMuDataExample]
  · rw [h]
    norm_num [greyMuPsExample, greyMuDataExample, List.getD]

end dip
